import Mathlib

/-!
Verification development for the quantumflow operation/gate algebra.

The Python sources (`quantumflow/operations.py`, `quantumflow/stdops.py`,
`quantumflow/var.py`) are embedded shallowly:

* a rank-`n` qubit tensor is a function `BVec n → α` where `BVec n` assigns a
  boolean to each tensor leg; an operator over `n` qubits is `BVec n → BVec n → α`
  (row bits, column bits), corresponding to numpy's reshape of a `2^n × 2^n`
  matrix into a rank-`2n` tensor of extent 2 per axis (row axes first);
* amplitudes are taken in an abstract commutative ring `α` (specialised to `ℚ`
  for concrete computations); the conjugation used by the numeric backend is
  modelled with `star`, which is trivial on `ℚ`, matching real amplitudes;
* Python exceptions become `Except String` results;
* the uniform random draw inside `Measure.run` becomes an explicit argument.

Code of the repository that lives outside the three source files (the tensor
contraction primitive, the `states` module, the `gates` module, `Circuit`) is
modelled from the specification, as flagged by doc comments below.
-/

namespace QF

/-- Assignment of a boolean to each of `n` tensor legs (one leg per qubit). -/
abbrev BVec (n : ℕ) := Fin n → Bool

/-- An operator over `k` qubits: row bits, then column bits, to an amplitude. -/
abbrev Op (α : Type) (k : ℕ) := BVec k → BVec k → α

/-- Read bit `m` of `r`, with `false` for an out-of-range leg (Python would
index-error; the operations below only use in-range legs). -/
def getB {n : ℕ} (r : BVec n) (m : ℕ) : Bool :=
  if h : m < n then r ⟨m, h⟩ else false

/-- Overwrite the bits of `r` at positions `idx i` with the bits `s i`,
leaving all other positions unchanged. -/
def ow {n k : ℕ} (r : BVec n) (idx : Fin k → ℕ) (s : BVec k) : BVec n :=
  fun j =>
    match (List.finRange k).find? (fun i => idx i == j.val) with
    | some i => s i
    | none => r j

/-- Sum of `f` over all assignments of booleans to `k` legs (an executable
enumeration of the same sum as `Finset.univ.sum`). -/
def bvSum {α : Type} [CommRing α] : (k : ℕ) → (BVec k → α) → α
  | 0, f => f (fun i => i.elim0)
  | k + 1, f =>
    bvSum k (fun s => f (Fin.cons false s)) + bvSum k (fun s => f (Fin.cons true s))

/-- Modelled from the spec: the tensor-contraction primitive `tensormul` of
`quantumflow.utils.math` (not under the given sources). Per spec section 6, given
an operator matrix `A` over `k` qubits, a target tensor `v` and an index mapping
`idx`, it contracts `A`'s column legs against the legs of `v` selected by `idx`,
"with matching semantics to standard array-index contraction". -/
def tensormul {α : Type} [CommRing α] {k n : ℕ} (A : Op α k) (idx : Fin k → ℕ)
    (v : BVec n → α) : BVec n → α :=
  fun r =>
    bvSum k (fun s : BVec k => A (fun i => getB r (idx i)) s * v (ow r idx s))

/-- `tensormul` applied to an operator viewed as a rank-`2n` tensor; the index
mapping touches only the row-leg group, as in `QuantumGate.__matmul__`. -/
def tensormulMat {α : Type} [CommRing α] {k n : ℕ} (A : Op α k) (idx : Fin k → ℕ)
    (B : Op α n) : Op α n :=
  fun r c => tensormul A idx (fun m => B m c) r

/-- The identity operator (`sym.eye` / `gates.Identity`'s matrix). -/
def idOp {α : Type} [CommRing α] {n : ℕ} : Op α n :=
  fun r c => if r = c then 1 else 0

/-- Ordinary matrix product of two operators over the same qubit count. -/
def matprod {α : Type} [CommRing α] {n : ℕ} (M N : Op α n) : Op α n :=
  fun r c => bvSum n (fun m : BVec n => M r m * N m c)

/-- Positions of the qubits `qs` within the qubit list `rs`:
`tuple(rs.index(q) for q in qs)` in the Python sources. -/
def idxmap (qs rs : List ℕ) : Fin qs.length → ℕ :=
  fun i => rs.indexOf (qs.get i)

/-- `tuple(sorted(set(l)))`: deduplicate and sort ascending. (Any
implementation with those three properties — ascending, duplicate-free, same
members — produces the same list, which is proved below.) -/
def sortedDedup (l : List ℕ) : List ℕ :=
  List.insertionSort (· ≤ ·) l.dedup

/-- A gate (`QuantumGate` of `operations.py`): an ordered qubit tuple together
with a dense operator over those qubits. -/
structure QuantumGate (α : Type) where
  qubits : List ℕ
  op : Op α qubits.length

/-- Modelled from the spec: `gates.Identity` (the `gates` module is not under
the given sources) — the identity gate over the given qubits. -/
def Identity {α : Type} [CommRing α] (qs : List ℕ) : QuantumGate α :=
  ⟨qs, idOp⟩

/-- The subset branch of `QuantumGate.__matmul__`: every qubit of `a` occurs in
`b`; contract `a`'s operator onto `b`'s operator at the matching positions
(`indices = tuple(other.qubits.index(q) for q in self.qubits)`), producing a
gate on `b`'s qubits. -/
def matmulSub {α : Type} [CommRing α] (a b : QuantumGate α) : QuantumGate α :=
  ⟨b.qubits, tensormulMat a.op (idxmap a.qubits b.qubits) b.op⟩

/-- `QuantumGate.__matmul__` (`a.matmul b` is Python's `a @ b`): if `a` acts on
qubits missing from `b`, first pad `b` with an identity over
`b.qubits + extra_qubits`, then contract. The recursive Python calls land in the
subset branch immediately, which is unfolded here. The order of `extra` is
unspecified in Python (`tuple(set(..) - set(..))`); first-occurrence order is
used. -/
def matmul {α : Type} [CommRing α] (a b : QuantumGate α) : QuantumGate α :=
  let extra := a.qubits.filter (fun q => !(b.qubits.contains q))
  if extra = [] then matmulSub a b
  else matmulSub a (matmulSub b (Identity (b.qubits ++ extra)))

/-- Bit-reindexing performed by `np.transpose(tensor, pperm)` inside
`QuantumGate.permute`: position `p` of the transposed tensor reads the bit `r j`
of the new index for the unique `j` with `perm j = p`. -/
def permBits {k : ℕ} (perm : Fin k → ℕ) (r : BVec k) (p : ℕ) : Bool :=
  match (List.finRange k).find? (fun j => perm j == p) with
  | some j => r j
  | none => false

/-- `QuantumGate.permute`: reshape the operator into a rank-`2n` tensor,
transpose the row-leg group and the column-leg group by the same permutation
`perm = tuple(self.qubits.index(q) for q in qubits)`, reshape back, and return a
gate on the reordered qubits (a `Unitary` in the source). -/
def QuantumGate.permute {α : Type} (g : QuantumGate α) (qs : List ℕ) : QuantumGate α :=
  if g.qubits = qs then g
  else
    ⟨qs, fun r c =>
      g.op (fun p => permBits (idxmap qs g.qubits) r p.val)
        (fun p => permBits (idxmap qs g.qubits) c p.val)⟩

/-- Modelled from the spec: the pure-state contract of the `states` module (not
under the given sources): an ordered qubit list, a rank-`n` tensor of
amplitudes, and a classical memory mapping. The memory maps addresses to the
classical values the sources store (the booleans/ints of `Measure`/`If` are
modelled as integers, matching Python's `1 == True`). -/
structure State (α : Type) where
  qubits : List ℕ
  tensor : BVec qubits.length → α
  memory : List (ℕ × ℤ)

/-- Modelled from the spec: `zero_ket` of the `states` module — the all-zero
pure state over the given qubits, with empty classical memory. -/
def zero_ket {α : Type} [CommRing α] (qs : List ℕ) : State α :=
  ⟨qs, fun b => if b = (fun _ => false) then 1 else 0, []⟩

/-- `QuantumGate._run_ket`: contract the gate's operator onto the state tensor
at `indices = tuple(ket.qubits.index(q) for q in self.qubits)`. -/
def QuantumGate.run_ket {α : Type} [CommRing α] (g : QuantumGate α) (st : State α) :
    State α :=
  { st with tensor := tensormul g.op (idxmap g.qubits st.qubits) st.tensor }

/-- Modelled from the spec: the mixed-state (`Density`) contract — a matrix over
the qubits plus classical memory. Only its shape matters here. -/
structure Density (α : Type) where
  qubits : List ℕ
  matrix : Op α qubits.length
  memory : List (ℕ × ℤ)

/-- A quantum state as dispatched on by `QuantumOperation.run`: pure or mixed. -/
inductive QState (α : Type) where
  | ket (k : State α)
  | density (d : Density α)

/-- `QuantumOperation.run`: with no state given, build the zero ket over the
operation's own qubits and run on it; otherwise dispatch on the state kind.
The operation's abstract `_run_ket`/`_run_density` are passed explicitly. -/
def QuantumOperation.run {α : Type} [CommRing α] (qubits : List ℕ)
    (run_ket : State α → State α) (run_density : Density α → Density α) :
    Option (QState α) → QState α
  | none => .ket (run_ket (zero_ket qubits))
  | some (.ket k) => .ket (run_ket k)
  | some (.density d) => .density (run_density d)

/-- A child operation of a composite: either a gate, or a generic operation
that only exposes its qubit and addr tuples (such as the measurement and
classical-control operations, which have no gate form and no adjoint). -/
inductive QOp (α : Type) where
  | gate (g : QuantumGate α)
  | generic (qubits : List ℕ) (addrs : List ℕ)

/-- `QuantumOperation.qubits` of a child operation. -/
def QOp.qubitsOf {α : Type} : QOp α → List ℕ
  | .gate g => g.qubits
  | .generic qs _ => qs

/-- `QuantumOperation.addrs` of a child operation (gates carry no addrs). -/
def QOp.addrsOf {α : Type} : QOp α → List ℕ
  | .gate _ => []
  | .generic _ as => as

/-- `QuantumOperation.asgate`: a gate converts to itself
(`QuantumGate.asgate`); a non-gate operation raises. -/
def QOp.asgate {α : Type} : QOp α → Except String (QuantumGate α)
  | .gate g => .ok g
  | .generic _ _ => .error "NotRepresentable"

/-- Modelled from the spec: the Hermitian conjugate of a concrete unitary gate
(implemented in the `gates` module, not under the given sources): the conjugate
transpose of the operator on the same qubits. -/
def gateH {α : Type} [Star α] (g : QuantumGate α) : QuantumGate α :=
  ⟨g.qubits, fun r c => star (g.op c r)⟩

/-- The `H` property of a child operation: gates have their conjugate
transpose; a generic operation has no well-defined adjoint and raises. -/
def QOp.H {α : Type} [Star α] : QOp α → Except String (QOp α)
  | .gate g => .ok (.gate (gateH g))
  | .generic _ _ => .error "NotSupported"

/-- `QuantumComposite`: the ordered child sequence plus the declared qubit and
addr closures. -/
structure QuantumComposite (α : Type) where
  elements : List (QOp α)
  qubits : List ℕ
  addrs : List ℕ

/-- One closure check of `QuantumComposite.__init__`: an omitted closure
defaults to the children's union; an explicit one must contain that union
(`set(elem_qubits).issubset(set(qubits))`), else the given error is raised. -/
def checkClosure (given? : Option (List ℕ)) (elems : List ℕ) (msg : String) :
    Except String (List ℕ) :=
  match given? with
  | none => .ok elems
  | some qs => if elems ⊆ qs then .ok qs else .error msg

/-- `QuantumComposite.__init__`: compute `elem_qubits`/`elem_addrs` as
`tuple(sorted(set(...)))` over the children, then run the qubit closure check
followed by the addr closure check (qubits checked before addrs, matching the
source's statement order). -/
def mkComposite {α : Type} (elements : List (QOp α))
    (qubits? addrs? : Option (List ℕ)) : Except String (QuantumComposite α) :=
  match checkClosure qubits? (sortedDedup (elements.flatMap QOp.qubitsOf))
      "Incommensurate qubits" with
  | .error e => .error e
  | .ok qubits =>
    match checkClosure addrs? (sortedDedup (elements.flatMap QOp.addrsOf))
        "Incommensurate addresses" with
    | .error e => .error e
    | .ok addrs => .ok ⟨elements, qubits, addrs⟩

/-- `QuantumComposite.H`: take each child's adjoint in reversed child order and
rebuild through the constructor with the declared closures preserved. -/
def QuantumComposite.H {α : Type} [Star α] (c : QuantumComposite α) :
    Except String (QuantumComposite α) :=
  match c.elements.reverse.mapM QOp.H with
  | .error e => .error e
  | .ok elements => mkComposite elements (some c.qubits) (some c.addrs)

/-- `QuantumComposite.asgate`: start from an identity gate over the closure's
qubits and fold `gate = elem.asgate() @ gate` over the children in order. -/
def QuantumComposite.asgate {α : Type} [CommRing α] (c : QuantumComposite α) :
    Except String (QuantumGate α) :=
  c.elements.foldlM
    (fun gate elem => (QOp.asgate elem).map (fun eg => matmul eg gate))
    (Identity c.qubits)

/-- Type-level data of a concrete `QuantumStdGate` subclass: qubit count,
parameter names, and the symbolic operator template (a `2^n × 2^n` matrix). -/
structure QuantumStdGate (α : Type) where
  cv_qubit_nb : ℕ
  cv_params : List String
  cv_sym_operator : Fin (2 ^ cv_qubit_nb) → Fin (2 ^ cv_qubit_nb) → α

lemma sub_pow_bound {t n iv : ℕ} (h1 : iv < 2 ^ n) (h2 : 2 ^ n - 2 ^ t ≤ iv) :
    iv - (2 ^ n - 2 ^ t) < 2 ^ t := by
  rcases le_or_lt (2 ^ t) (2 ^ n) with h | h <;> omega

/-- The block-diagonal operator `sym.diag(sym.eye(2^n - 2^t), target_block)`
synthesized by `QuantumStdCtrlGate.__init_subclass__`: an identity block of
size `2^n - 2^t` followed by the target's symbolic operator block. -/
def ctrlSymOperator {α : Type} [CommRing α] (n : ℕ) (target : QuantumStdGate α) :
    Fin (2 ^ n) → Fin (2 ^ n) → α :=
  fun i j =>
    if i.val < 2 ^ n - 2 ^ target.cv_qubit_nb ∧
        j.val < 2 ^ n - 2 ^ target.cv_qubit_nb then
      (if i.val = j.val then 1 else 0)
    else if h : 2 ^ n - 2 ^ target.cv_qubit_nb ≤ i.val ∧
        2 ^ n - 2 ^ target.cv_qubit_nb ≤ j.val then
      target.cv_sym_operator
        ⟨i.val - (2 ^ n - 2 ^ target.cv_qubit_nb), sub_pow_bound i.isLt h.1⟩
        ⟨j.val - (2 ^ n - 2 ^ target.cv_qubit_nb), sub_pow_bound j.isLt h.2⟩
    else 0

/-- Type-level data of a concrete `QuantumStdCtrlGate` subclass. -/
structure QuantumStdCtrlGate (α : Type) where
  cv_qubit_nb : ℕ
  cv_params : List String
  cv_target : QuantumStdGate α
  cv_sym_operator : Fin (2 ^ cv_qubit_nb) → Fin (2 ^ cv_qubit_nb) → α

/-- `QuantumStdCtrlGate.__init_subclass__`: assert that the target's parameter
names equal the subclass's (a fatal configuration error, modelled as `none`),
then synthesize the block-diagonal symbolic operator. -/
def initSubclassCtrl {α : Type} [CommRing α] (n : ℕ) (params : List String)
    (target : QuantumStdGate α) : Option (QuantumStdCtrlGate α) :=
  if target.cv_params = params then
    some ⟨n, params, target, ctrlSymOperator n target⟩
  else none

/-- `QuantumStdCtrlGate.control_qubit_nb`:
`self.cv_qubit_nb - self.cv_target.cv_qubit_nb`. -/
def QuantumStdCtrlGate.control_qubit_nb {α : Type} (c : QuantumStdCtrlGate α) : ℕ :=
  c.cv_qubit_nb - c.cv_target.cv_qubit_nb

/-- The operator of `stdops.Project0`: `[[1, 0], [0, 0]]`. -/
def P0op {α : Type} [CommRing α] : Op α 1 :=
  fun r c => if r 0 = false ∧ c 0 = false then 1 else 0

/-- The operator of `stdops.Project1`: `[[0, 0], [0, 1]]`. -/
def P1op {α : Type} [CommRing α] : Op α 1 :=
  fun r c => if r 0 = true ∧ c 0 = true then 1 else 0

/-- `Project0(q).run(ket)` / `Project1(q).run(ket)`: apply the single-qubit
projector to the state tensor at qubit `q`'s position. -/
def projectRun {α : Type} [CommRing α] (P : Op α 1) (q : ℕ) (st : State α) :
    State α :=
  { st with tensor := tensormul P (fun _ => st.qubits.indexOf q) st.tensor }

/-- Modelled from the spec: `State.norm` of the `states` module — the inner
product of the state tensor with itself (amplitudes are modelled in a ring with
trivial conjugation, so conjugation is omitted). -/
def State.norm {α : Type} [CommRing α] (st : State α) : α :=
  bvSum st.qubits.length (fun b => st.tensor b * st.tensor b)

/-- Modelled from the spec: `State.normalize` — divide the tensor by the square
root of the norm; the square-root function of the numeric backend is passed
explicitly. -/
def State.normalize {α : Type} [Field α] (st : State α) (sqrtFn : α → α) : State α :=
  { st with tensor := fun b => st.tensor b / sqrtFn st.norm }

/-- Modelled from the spec: `State.store` — functionally update the classical
memory at one key (a Python dict update; newest binding shadows). -/
def State.store {α : Type} (st : State α) (key : ℕ) (value : ℤ) : State α :=
  { st with memory := (key, value) :: st.memory }

/-- `stdops.Measure`: measure `qubit` and store the outcome at `cbit`. -/
structure Measure where
  qubit : ℕ
  cbit : ℕ

/-- `Measure.run`: compute the probability of outcome 0 as the norm of the
zero-projected state, compare one uniform sample `rand` against it, normalize
the branch actually taken, and store the outcome at `cbit`. The pseudorandom
draw `np.random.random()` and the backend square root are explicit arguments. -/
def Measure.run {α : Type} [LinearOrderedField α] (m : Measure) (sqrtFn : α → α)
    (rand : α) (ket : State α) : State α :=
  let prob_zero := (projectRun P0op m.qubit ket).norm
  if rand < prob_zero then
    ((projectRun P0op m.qubit ket).normalize sqrtFn).store m.cbit 0
  else
    ((projectRun P1op m.qubit ket).normalize sqrtFn).store m.cbit 1

/-- `stdops.If`: apply the wrapped operation only if `memory[key]` equals
`value`. The wrapped operation's `run` and `evolve` are carried as functions. -/
structure If (α : Type) where
  element : State α → State α
  elementEvolve : Density α → Density α
  key : ℕ
  value : ℤ

/-- `If.run`: `if ket.memory[self.key] == self.value: ket = self.element.run(ket)`.
A missing key raises (Python `KeyError`), modelled as the error result. -/
def If.run {α : Type} (op : If α) (ket : State α) : Except String (State α) :=
  match ket.memory.lookup op.key with
  | none => .error "MissingMemoryKey"
  | some v => if v = op.value then .ok (op.element ket) else .ok ket

/-- `If.evolve`: the same dispatch on a density state. -/
def If.evolve {α : Type} (op : If α) (rho : Density α) : Except String (Density α) :=
  match rho.memory.lookup op.key with
  | none => .error "MissingMemoryKey"
  | some v => if v = op.value then .ok (op.elementEvolve rho) else .ok rho

/-- `Moment.__init__`: flatten the children into a circuit (modelled from the
spec: `Circuit` is the old-API composite, with the same closure rule as
`QuantumComposite`), gather the flattened child qubits, and fail with the
disjointness error when any qubit repeats
(`len(qbs) != len(set(qbs))`). -/
def Moment.init {α : Type} (elements : List (QOp α)) (qubits? : Option (List ℕ)) :
    Except String (QuantumComposite α) :=
  match mkComposite elements qubits? none with
  | .error e => .error e
  | .ok circ =>
    let qbs := circ.elements.flatMap QOp.qubitsOf
    if qbs.dedup.length ≠ qbs.length then
      .error "Qubits of operations within Moments must be disjoint."
    else
      .ok circ

/-! ### Helper lemmas about the tensor machinery -/

lemma bvSum_eq_sum {α : Type} [CommRing α] (k : ℕ) (f : BVec k → α) :
    bvSum k f = ∑ s : BVec k, f s := by
  induction k with
  | zero =>
    rw [bvSum, Fintype.sum_subsingleton f (fun i => i.elim0)]
  | succ k ih =>
    rw [bvSum, ih, ih]
    rw [← Equiv.sum_comp (Fin.consEquiv (fun _ => Bool)) f, Fintype.sum_prod_type,
      Fintype.sum_bool]
    exact add_comm _ _

lemma getB_coe {n : ℕ} (r : BVec n) (j : Fin n) : getB r j.val = r j := by
  simp [getB]

/-- Overwriting the selected legs of `r` with the very bits `r` already carries
there is the identity. -/
lemma ow_getB_self {n k : ℕ} (r : BVec n) (idx : Fin k → ℕ) :
    ow r idx (fun i => getB r (idx i)) = r := by
  funext j
  unfold ow
  cases hfind : (List.finRange k).find? (fun i => idx i == j.val) with
  | none => rfl
  | some i =>
    have hij : idx i = j.val := by simpa using List.find?_some hfind
    simp only [hij, getB_coe]

/-- Contracting the identity operator onto any target leaves it unchanged. -/
lemma tensormul_idOp {α : Type} [CommRing α] {k n : ℕ} (idx : Fin k → ℕ)
    (v : BVec n → α) : tensormul idOp idx v = v := by
  funext r
  unfold tensormul
  rw [bvSum_eq_sum]
  have h1 : ∀ s : BVec k,
      (idOp (α := α) (fun i => getB r (idx i)) s) * v (ow r idx s) =
        if (fun i => getB r (idx i)) = s then v (ow r idx s) else 0 := by
    intro s
    by_cases h : (fun i => getB r (idx i)) = s <;> simp [idOp, h]
  rw [Finset.sum_congr rfl (fun s _ => h1 s), Finset.sum_ite_eq _ _ _,
    if_pos (Finset.mem_univ _), ow_getB_self]

lemma tensormulMat_idOp {α : Type} [CommRing α] {k n : ℕ} (idx : Fin k → ℕ)
    (B : Op α n) : tensormulMat idOp idx B = B := by
  funext r c
  show tensormul idOp idx (fun m => B m c) r = B r c
  rw [tensormul_idOp]

/-- Left multiplication by the identity operator. -/
lemma matprod_idOp_left {α : Type} [CommRing α] {n : ℕ} (M : Op α n) :
    matprod idOp M = M := by
  funext r c
  unfold matprod
  rw [bvSum_eq_sum]
  have h1 : ∀ m : BVec n, idOp (α := α) r m * M m c = if r = m then M m c else 0 := by
    intro m
    by_cases h : r = m <;> simp [idOp, h]
  rw [Finset.sum_congr rfl (fun m _ => h1 m), Finset.sum_ite_eq _ _ _,
    if_pos (Finset.mem_univ _)]

/-- Contracting `A` onto `B` equals the matrix product of (`A` expanded over
`B`'s legs by an identity on the untouched legs) with `B`. -/
lemma matprod_expand {α : Type} [CommRing α] {k n : ℕ} (A : Op α k)
    (idx : Fin k → ℕ) (B : Op α n) :
    matprod (tensormulMat A idx idOp) B = tensormulMat A idx B := by
  funext r c
  show bvSum n (fun m => tensormul A idx (fun x => idOp x m) r * B m c) =
    tensormul A idx (fun m => B m c) r
  unfold tensormul
  rw [bvSum_eq_sum, bvSum_eq_sum]
  have h1 : ∀ m : BVec n,
      bvSum k (fun s => A (fun i => getB r (idx i)) s * idOp (ow r idx s) m) * B m c =
        ∑ s : BVec k,
          (if ow r idx s = m then A (fun i => getB r (idx i)) s * B m c else 0) := by
    intro m
    rw [bvSum_eq_sum, Finset.sum_mul]
    refine Finset.sum_congr rfl (fun s _ => ?_)
    by_cases h : ow r idx s = m <;> simp [idOp, h, mul_assoc]
  rw [Finset.sum_congr rfl (fun m _ => h1 m), Finset.sum_comm]
  refine Finset.sum_congr rfl (fun s _ => ?_)
  rw [Finset.sum_ite_eq _ _ _, if_pos (Finset.mem_univ _)]

/-! ### Helper lemmas about `sortedDedup` and composites -/

lemma sortedDedup_sorted (l : List ℕ) : List.Sorted (· ≤ ·) (sortedDedup l) :=
  List.sorted_insertionSort _ _

lemma sortedDedup_perm_dedup (l : List ℕ) : (sortedDedup l).Perm l.dedup :=
  List.perm_insertionSort _ _

lemma sortedDedup_nodup (l : List ℕ) : (sortedDedup l).Nodup :=
  (sortedDedup_perm_dedup l).nodup_iff.2 (List.nodup_dedup l)

lemma mem_sortedDedup (l : List ℕ) (a : ℕ) : a ∈ sortedDedup l ↔ a ∈ l := by
  rw [(sortedDedup_perm_dedup l).mem_iff, List.mem_dedup]

lemma sortedDedup_length_nodup (l : List ℕ) (h : l.Nodup) :
    (sortedDedup l).length = l.length := by
  rw [(sortedDedup_perm_dedup l).length_eq, h.dedup]

lemma dedup_length_eq_iff (l : List ℕ) : l.dedup.length = l.length ↔ l.Nodup := by
  constructor
  · intro h
    have := (List.dedup_sublist l).eq_of_length h
    rw [← this]
    exact List.nodup_dedup l
  · intro h
    rw [h.dedup]

/-- Construction with defaulted closures always succeeds, and yields the
sorted deduplicated unions as the closures. -/
lemma mkComposite_none {α : Type} (elements : List (QOp α)) :
    mkComposite elements none none =
      .ok ⟨elements, sortedDedup (elements.flatMap QOp.qubitsOf),
        sortedDedup (elements.flatMap QOp.addrsOf)⟩ := rfl

lemma sortedDedup_subset_iff (l qs : List ℕ) :
    sortedDedup l ⊆ qs ↔ l ⊆ qs := by
  constructor
  · intro h x hx
    exact h ((mem_sortedDedup _ x).2 hx)
  · intro h x hx
    exact h ((mem_sortedDedup _ x).1 hx)

lemma checkClosure_none (elems : List ℕ) (msg : String) :
    checkClosure none elems msg = .ok elems := rfl

lemma checkClosure_some_pos {elems qs : List ℕ} (msg : String) (h : elems ⊆ qs) :
    checkClosure (some qs) elems msg = .ok qs := by
  simp [checkClosure, h]

lemma checkClosure_some_neg {elems qs : List ℕ} (msg : String) (h : ¬ elems ⊆ qs) :
    checkClosure (some qs) elems msg = .error msg := by
  simp [checkClosure, h]

/-! ### The claims -/

/-- Claim C9: for every operation, calling `run` with no state argument
constructs the all-zero pure state over exactly the operation's own qubit tuple
and runs the operation on it: `run()` returns the same result as `run` applied
to the zero ket on `op.qubits`. -/
theorem spec_C9 {α : Type} [CommRing α] (qubits : List ℕ)
    (run_ket : State α → State α) (run_density : Density α → Density α) :
    QuantumOperation.run qubits run_ket run_density none =
      QuantumOperation.run qubits run_ket run_density
        (some (.ket (zero_ket qubits))) ∧
    QuantumOperation.run qubits run_ket run_density none =
      .ket (run_ket (zero_ket qubits)) ∧
    (zero_ket (α := α) qubits).qubits = qubits :=
  ⟨rfl, rfl, rfl⟩

/-- Claim C10: a Composite constructed without explicit closures gets as its
qubit tuple the deduplicated union of the children's qubits in sorted label
order (and its addr tuple likewise), not in first-use program order — for a
composite using qubit 2 before qubit 1 the closure is `[1, 2]`, while the
first-use order would be `[2, 1]`. -/
theorem spec_C10 {α : Type} (elements : List (QOp α)) :
    mkComposite elements none none =
      .ok ⟨elements, sortedDedup (elements.flatMap QOp.qubitsOf),
        sortedDedup (elements.flatMap QOp.addrsOf)⟩ ∧
    List.Sorted (· ≤ ·) (sortedDedup (elements.flatMap QOp.qubitsOf)) ∧
    (sortedDedup (elements.flatMap QOp.qubitsOf)).Nodup ∧
    (∀ q, q ∈ sortedDedup (elements.flatMap QOp.qubitsOf) ↔
      q ∈ elements.flatMap QOp.qubitsOf) ∧
    List.Sorted (· ≤ ·) (sortedDedup (elements.flatMap QOp.addrsOf)) ∧
    (sortedDedup (elements.flatMap QOp.addrsOf)).Nodup ∧
    (∀ a, a ∈ sortedDedup (elements.flatMap QOp.addrsOf) ↔
      a ∈ elements.flatMap QOp.addrsOf) ∧
    sortedDedup [2, 1] = [1, 2] ∧ ([2, 1] : List ℕ).dedup = [2, 1] :=
  ⟨mkComposite_none elements, sortedDedup_sorted _, sortedDedup_nodup _,
    fun q => mem_sortedDedup _ q, sortedDedup_sorted _, sortedDedup_nodup _,
    fun a => mem_sortedDedup _ a, by decide, by decide⟩

/-- Claim C8: with an explicitly given qubit (or addr) closure, Composite
construction succeeds exactly when the closure contains the union of the
children's qubits (resp. addrs) — so the closure may be widened beyond the
union but never narrowed below it — and fails with the incommensurate-closure
error otherwise. -/
theorem spec_C8 {α : Type} (elements : List (QOp α)) (qs as : List ℕ) :
    (elements.flatMap QOp.qubitsOf ⊆ qs → elements.flatMap QOp.addrsOf ⊆ as →
      mkComposite elements (some qs) (some as) = .ok ⟨elements, qs, as⟩) ∧
    (¬ elements.flatMap QOp.qubitsOf ⊆ qs →
      mkComposite elements (some qs) (some as) =
        .error "Incommensurate qubits") ∧
    (elements.flatMap QOp.qubitsOf ⊆ qs → ¬ elements.flatMap QOp.addrsOf ⊆ as →
      mkComposite elements (some qs) (some as) =
        .error "Incommensurate addresses") := by
  refine ⟨?_, ?_, ?_⟩
  · intro h1 h2
    unfold mkComposite
    rw [checkClosure_some_pos _ ((sortedDedup_subset_iff _ _).2 h1),
      checkClosure_some_pos _ ((sortedDedup_subset_iff _ _).2 h2)]
  · intro h1
    unfold mkComposite
    rw [checkClosure_some_neg _ (fun h => h1 ((sortedDedup_subset_iff _ _).1 h))]
  · intro h1 h2
    unfold mkComposite
    rw [checkClosure_some_pos _ ((sortedDedup_subset_iff _ _).2 h1),
      checkClosure_some_neg _ (fun h => h2 ((sortedDedup_subset_iff _ _).1 h))]

/-- Witness for C8 at concrete inputs: one widened closure that succeeds, one
narrowed qubit closure that fails, one narrowed addr closure that fails. -/
theorem spec_C8_witness :
    mkComposite (α := ℤ) [QOp.generic [0] [5]] (some [0, 1]) (some [5]) =
      .ok ⟨[QOp.generic [0] [5]], [0, 1], [5]⟩ ∧
    mkComposite (α := ℤ) [QOp.generic [0] [5]] (some [1]) (some [5]) =
      .error "Incommensurate qubits" ∧
    mkComposite (α := ℤ) [QOp.generic [0] [5]] (some [0, 1]) (some []) =
      .error "Incommensurate addresses" :=
  ⟨(spec_C8 [QOp.generic [0] [5]] [0, 1] [5]).1 (by decide) (by decide),
    (spec_C8 [QOp.generic [0] [5]] [1] [5]).2.1 (by decide),
    (spec_C8 [QOp.generic [0] [5]] [0, 1] []).2.2 (by decide) (by decide)⟩

/-- Claim C7: Moment construction fails with the disjointness error exactly
when the flattened children's qubits contain a duplicate; with pairwise
disjoint children it succeeds and preserves the children in their given
order. -/
theorem spec_C7 {α : Type} (elements : List (QOp α)) :
    (Moment.init elements none =
        .error "Qubits of operations within Moments must be disjoint." ↔
      ¬ (elements.flatMap QOp.qubitsOf).Nodup) ∧
    ((elements.flatMap QOp.qubitsOf).Nodup →
      Moment.init elements none =
        .ok ⟨elements, sortedDedup (elements.flatMap QOp.qubitsOf),
          sortedDedup (elements.flatMap QOp.addrsOf)⟩) := by
  have hinit : Moment.init elements none =
      (if (elements.flatMap QOp.qubitsOf).dedup.length ≠
          (elements.flatMap QOp.qubitsOf).length then
        .error "Qubits of operations within Moments must be disjoint."
      else
        .ok ⟨elements, sortedDedup (elements.flatMap QOp.qubitsOf),
          sortedDedup (elements.flatMap QOp.addrsOf)⟩) := by
    unfold Moment.init
    rw [mkComposite_none]
  by_cases h : (elements.flatMap QOp.qubitsOf).Nodup
  · have hlen : (elements.flatMap QOp.qubitsOf).dedup.length =
        (elements.flatMap QOp.qubitsOf).length := (dedup_length_eq_iff _).2 h
    rw [hinit, if_neg (by simpa using hlen)]
    exact ⟨by simp [h], fun _ => rfl⟩
  · have hlen : ¬ (elements.flatMap QOp.qubitsOf).dedup.length =
        (elements.flatMap QOp.qubitsOf).length :=
      fun hl => h ((dedup_length_eq_iff _).1 hl)
    rw [hinit, if_pos (by simpa using hlen)]
    exact ⟨by simp [h], fun hn => absurd hn h⟩

/-- Witness for C7 at concrete inputs: two children sharing qubit 0 fail with
the disjointness error; children on qubits 0 and 1 succeed with both children
kept in order. -/
theorem spec_C7_witness :
    Moment.init (α := ℤ) [QOp.generic [0] [], QOp.generic [0] []] none =
      .error "Qubits of operations within Moments must be disjoint." ∧
    Moment.init (α := ℤ) [QOp.generic [0] [], QOp.generic [1] []] none =
      .ok ⟨[QOp.generic [0] [], QOp.generic [1] []],
        sortedDedup ([QOp.generic (α := ℤ) [0] [],
          QOp.generic [1] []].flatMap QOp.qubitsOf),
        sortedDedup ([QOp.generic (α := ℤ) [0] [],
          QOp.generic [1] []].flatMap QOp.addrsOf)⟩ :=
  ⟨(spec_C7 [QOp.generic [0] [], QOp.generic [0] []]).1.2 (by decide),
    (spec_C7 [QOp.generic [0] [], QOp.generic [1] []]).2 (by decide)⟩

/-- Claim C5: `If(op, key, v)` with `memory[key]` absent fails with the
missing-key error; with `memory[key] != v` both `run` and `evolve` return the
state exactly unchanged (quantum data and memory identical); with
`memory[key] == v` they apply the wrapped operation's effect. -/
theorem spec_C5 {α : Type} (op : If α) (ket : State α) (rho : Density α) :
    (ket.memory.lookup op.key = none →
      op.run ket = .error "MissingMemoryKey") ∧
    (∀ v, ket.memory.lookup op.key = some v → v ≠ op.value →
      op.run ket = .ok ket) ∧
    (∀ v, ket.memory.lookup op.key = some v → v = op.value →
      op.run ket = .ok (op.element ket)) ∧
    (rho.memory.lookup op.key = none →
      op.evolve rho = .error "MissingMemoryKey") ∧
    (∀ v, rho.memory.lookup op.key = some v → v ≠ op.value →
      op.evolve rho = .ok rho) ∧
    (∀ v, rho.memory.lookup op.key = some v → v = op.value →
      op.evolve rho = .ok (op.elementEvolve rho)) := by
  refine ⟨fun h => ?_, fun v h hne => ?_, fun v h he => ?_,
    fun h => ?_, fun v h hne => ?_, fun v h he => ?_⟩
  · simp [If.run, h]
  · simp [If.run, h, hne]
  · simp [If.run, h, he]
  · simp [If.evolve, h]
  · simp [If.evolve, h, hne]
  · simp [If.evolve, h, he]

/-- Witness for C5 at concrete inputs: missing key errors; mismatched value
passes the state through unchanged; matched value applies the operation. -/
theorem spec_C5_witness :
    (⟨id, id, 0, 1⟩ : If ℤ).run ⟨[], fun _ => 1, []⟩ =
      .error "MissingMemoryKey" ∧
    (⟨id, id, 0, 1⟩ : If ℤ).run ⟨[], fun _ => 1, [(0, 2)]⟩ =
      .ok ⟨[], fun _ => 1, [(0, 2)]⟩ ∧
    (⟨id, id, 0, 1⟩ : If ℤ).run ⟨[], fun _ => 1, [(0, 1)]⟩ =
      .ok (id (⟨[], fun _ => 1, [(0, 1)]⟩ : State ℤ)) :=
  ⟨(spec_C5 ⟨id, id, 0, 1⟩ ⟨[], fun _ => 1, []⟩ ⟨[], fun _ _ => 0, []⟩).1 rfl,
    (spec_C5 ⟨id, id, 0, 1⟩ ⟨[], fun _ => 1, [(0, 2)]⟩
      ⟨[], fun _ _ => 0, []⟩).2.1 2 rfl (by decide),
    (spec_C5 ⟨id, id, 0, 1⟩ ⟨[], fun _ => 1, [(0, 1)]⟩
      ⟨[], fun _ _ => 0, []⟩).2.2.1 1 rfl rfl⟩

lemma two_pow_le_two_pow {t n : ℕ} (h : t ≤ n) : 2 ^ t ≤ 2 ^ n :=
  Nat.pow_le_pow_right (by norm_num) h

lemma embed_bound {t n : ℕ} (ht : t ≤ n) (a : Fin (2 ^ t)) :
    2 ^ n - 2 ^ t + a.val < 2 ^ n := by
  have h1 := two_pow_le_two_pow ht
  have h2 := a.isLt
  omega

/-- Claim C2: a standard controlled-gate type has
`controlQubitCount = qubitCount - target.qubitCount`, and its synthesized
symbolic operator is block-diagonal with an identity block of size
`2^qubitCount − 2^target.qubitCount` followed by the target's symbolic operator
block (zero off the blocks); the parameter-name invariant is enforced at
type-definition time. The 2-qubit-over-1-qubit-target instance is exercised in
the witness. -/
theorem spec_C2 {α : Type} [CommRing α] (n : ℕ) (params : List String)
    (target : QuantumStdGate α) (c : QuantumStdCtrlGate α)
    (ht : target.cv_qubit_nb ≤ n)
    (hmk : initSubclassCtrl n params target = some c) :
    c = ⟨n, params, target, ctrlSymOperator n target⟩ ∧
    c.control_qubit_nb = n - target.cv_qubit_nb ∧
    (∀ i j : Fin (2 ^ n), i.val < 2 ^ n - 2 ^ target.cv_qubit_nb →
      j.val < 2 ^ n - 2 ^ target.cv_qubit_nb →
      ctrlSymOperator n target i j = if i.val = j.val then (1 : α) else 0) ∧
    (∀ a b : Fin (2 ^ target.cv_qubit_nb),
      ctrlSymOperator n target
          ⟨2 ^ n - 2 ^ target.cv_qubit_nb + a.val, embed_bound ht a⟩
          ⟨2 ^ n - 2 ^ target.cv_qubit_nb + b.val, embed_bound ht b⟩ =
        target.cv_sym_operator a b) ∧
    (∀ i j : Fin (2 ^ n), i.val < 2 ^ n - 2 ^ target.cv_qubit_nb →
      2 ^ n - 2 ^ target.cv_qubit_nb ≤ j.val →
      ctrlSymOperator n target i j = 0) ∧
    (∀ i j : Fin (2 ^ n), 2 ^ n - 2 ^ target.cv_qubit_nb ≤ i.val →
      j.val < 2 ^ n - 2 ^ target.cv_qubit_nb →
      ctrlSymOperator n target i j = 0) ∧
    target.cv_params = params := by
  have hp : target.cv_params = params := by
    by_contra hp
    simp [initSubclassCtrl, hp] at hmk
  have hc : c = ⟨n, params, target, ctrlSymOperator n target⟩ := by
    rw [initSubclassCtrl, if_pos hp] at hmk
    exact (Option.some.inj hmk).symm
  refine ⟨hc, ?_, ?_, ?_, ?_, ?_, hp⟩
  · rw [hc]
    rfl
  · intro i j hi hj
    unfold ctrlSymOperator
    rw [if_pos ⟨hi, hj⟩]
  · intro a b
    have ha := a.isLt
    have hb := b.isLt
    have hle := two_pow_le_two_pow ht
    unfold ctrlSymOperator
    rw [if_neg (by simp only [Fin.val_mk]; omega),
      dif_pos ⟨by simp only [Fin.val_mk]; omega, by simp only [Fin.val_mk]; omega⟩]
    congr 1 <;> exact Fin.ext (by simp only [Fin.val_mk]; omega)
  · intro i j hi hj
    unfold ctrlSymOperator
    rw [if_neg (by omega), dif_neg (by omega)]
  · intro i j hi hj
    unfold ctrlSymOperator
    rw [if_neg (by omega), dif_neg (by omega)]

/-- Witness for C2: the 2-qubit controlled gate over the 1-qubit X target (the
symbolic matrix `[[0, 1], [1, 0]]`): one control qubit; the control-0 block of
the synthesized operator is the 2×2 identity, the control-1 block is X's
operator, derived from the general block theorem at concrete indices. -/
theorem spec_C2_witness :
    (1 ≤ 2 ∧
      initSubclassCtrl 2 []
          (⟨1, [], fun i j => if i = j then 0 else 1⟩ : QuantumStdGate ℤ) =
        some ⟨2, [], ⟨1, [], fun i j => if i = j then 0 else 1⟩,
          ctrlSymOperator 2 ⟨1, [], fun i j => if i = j then 0 else 1⟩⟩) ∧
    (⟨2, [], ⟨1, [], fun i j => if i = j then 0 else 1⟩,
        ctrlSymOperator 2 ⟨1, [], fun i j => if i = j then 0 else 1⟩⟩ :
      QuantumStdCtrlGate ℤ).control_qubit_nb = 2 - 1 := by
  refine ⟨⟨by decide, rfl⟩, ?_⟩
  exact (spec_C2 2 [] (⟨1, [], fun i j => if i = j then 0 else 1⟩ :
    QuantumStdGate ℤ) _ (by decide) rfl).2.1

/-! ### Helper lemmas for the composite adjoint -/

lemma mkComposite_some_ok {α : Type} {elements : List (QOp α)} {qs as : List ℕ}
    (h1 : elements.flatMap QOp.qubitsOf ⊆ qs)
    (h2 : elements.flatMap QOp.addrsOf ⊆ as) :
    mkComposite elements (some qs) (some as) = .ok ⟨elements, qs, as⟩ := by
  unfold mkComposite
  rw [checkClosure_some_pos _ ((sortedDedup_subset_iff _ _).2 h1),
    checkClosure_some_pos _ ((sortedDedup_subset_iff _ _).2 h2)]

/-- Conjugate-transposing twice is the identity on gates. -/
lemma gateH_gateH {α : Type} [InvolutiveStar α] (g : QuantumGate α) :
    gateH (gateH g) = g := by
  show (⟨g.qubits, fun r c => star (star (g.op r c))⟩ : QuantumGate α) = g
  have : (fun r c => star (star (g.op r c))) = g.op := by
    funext r c
    exact star_star _
  rw [this]

lemma mapM_H_gates {α : Type} [Star α] (gs : List (QuantumGate α)) :
    (gs.map QOp.gate).mapM QOp.H = .ok (gs.map (fun g => QOp.gate (gateH g))) := by
  induction gs with
  | nil => rfl
  | cons g gs ih =>
    rw [List.map_cons, List.mapM_cons, List.map_cons]
    show (QOp.H (QOp.gate g)) >>= _ = _
    rw [show QOp.H (QOp.gate (α := α) g) = .ok (QOp.gate (gateH g)) from rfl]
    show (gs.map QOp.gate).mapM QOp.H >>= _ = _
    rw [ih]
    rfl

lemma flatMap_qubits_map_gateH {α : Type} [Star α] (gs : List (QuantumGate α)) :
    (gs.map (fun g => QOp.gate (gateH g))).flatMap QOp.qubitsOf =
      gs.flatMap (fun g => g.qubits) := by
  induction gs with
  | nil => rfl
  | cons g gs ih =>
    simp only [List.map_cons, List.flatMap_cons, ih]
    rfl

lemma flatMap_qubits_map_gate {α : Type} (gs : List (QuantumGate α)) :
    (gs.map QOp.gate).flatMap QOp.qubitsOf = gs.flatMap (fun g => g.qubits) := by
  induction gs with
  | nil => rfl
  | cons g gs ih =>
    simp only [List.map_cons, List.flatMap_cons, ih]
    rfl

lemma flatMap_addrs_gates {α : Type} (gs : List (QOp α))
    (hg : ∀ e ∈ gs, ∃ g, e = QOp.gate g) :
    gs.flatMap QOp.addrsOf = [] := by
  induction gs with
  | nil => rfl
  | cons e es ih =>
    obtain ⟨g, rfl⟩ := hg e (List.mem_cons_self e es)
    rw [List.flatMap_cons, ih (fun x hx => hg x (List.mem_cons_of_mem _ hx))]
    rfl

/-- Claim C4: the Hermitian conjugate of a Composite is a Composite whose
children are the adjoints of the original children in reversed order, with the
declared qubit and addr closures preserved; taking the Hermitian conjugate
twice reproduces a Composite equal to the original, with the original child
order. Stated for composites of (unitary) gates, the only children with a
well-defined adjoint. -/
theorem spec_C4 {α : Type} [CommRing α] [StarRing α] (c : QuantumComposite α)
    (gs : List (QuantumGate α)) (hels : c.elements = gs.map QOp.gate)
    (hsub : ∀ g ∈ gs, g.qubits ⊆ c.qubits) :
    c.H = .ok ⟨gs.reverse.map (fun g => QOp.gate (gateH g)), c.qubits, c.addrs⟩ ∧
    QuantumComposite.H
        ⟨gs.reverse.map (fun g => QOp.gate (gateH g)), c.qubits, c.addrs⟩ =
      .ok c := by
  have hsub' : ∀ (l : List (QuantumGate α)), (∀ g ∈ l, g.qubits ⊆ c.qubits) →
      l.flatMap (fun g => g.qubits) ⊆ c.qubits := by
    intro l hl x hx
    obtain ⟨g, hgl, hgx⟩ := List.mem_flatMap.1 hx
    exact hl g hgl hgx
  have haddr : ∀ (l : List (QOp α)), (∀ e ∈ l, ∃ g, e = QOp.gate g) →
      l.flatMap QOp.addrsOf ⊆ c.addrs := by
    intro l hl
    rw [flatMap_addrs_gates l hl]
    exact List.nil_subset _
  constructor
  · unfold QuantumComposite.H
    rw [hels, ← List.map_reverse, mapM_H_gates]
    refine mkComposite_some_ok ?_ (haddr _ (fun e he => by
      obtain ⟨g, _, rfl⟩ := List.mem_map.1 he
      exact ⟨gateH g, rfl⟩))
    rw [flatMap_qubits_map_gateH]
    exact hsub' _ (fun g hg => hsub g (List.mem_reverse.1 hg))
  · unfold QuantumComposite.H
    have h1 : (gs.reverse.map (fun g => QOp.gate (gateH g))).reverse =
        (gs.map gateH).map QOp.gate := by
      rw [← List.map_reverse, List.reverse_reverse, List.map_map]
      rfl
    rw [h1, mapM_H_gates]
    have h2 : (gs.map gateH).map (fun g => QOp.gate (gateH g)) = gs.map QOp.gate := by
      rw [List.map_map]
      refine List.map_congr_left (fun g _ => ?_)
      show QOp.gate (gateH (gateH g)) = QOp.gate g
      rw [gateH_gateH]
    rw [h2]
    have hq : (gs.map QOp.gate).flatMap QOp.qubitsOf ⊆ c.qubits := by
      rw [flatMap_qubits_map_gate]
      exact hsub' gs hsub
    show mkComposite (gs.map QOp.gate) (some c.qubits) (some c.addrs) = Except.ok c
    rw [mkComposite_some_ok hq (haddr _ (fun e he => by
      obtain ⟨g, _, rfl⟩ := List.mem_map.1 he
      exact ⟨g, rfl⟩))]
    rw [← hels]

/-- Witness for C4 at a concrete input: a composite of one single-qubit gate
over ℤ; its adjoint is the composite of the conjugate-transposed gate with the
closure preserved. -/
theorem spec_C4_witness :
    (∀ g ∈ [(⟨[0], fun r c => if r = c then 0 else 1⟩ : QuantumGate ℤ)],
      g.qubits ⊆ [0]) ∧
    QuantumComposite.H
        (⟨[QOp.gate ⟨[0], fun r c => if r = c then 0 else 1⟩], [0], []⟩ :
          QuantumComposite ℤ) =
      .ok ⟨[QOp.gate (gateH ⟨[0], fun r c => if r = c then 0 else 1⟩)], [0], []⟩ := by
  constructor
  · decide
  · have h := (spec_C4 (α := ℤ)
      ⟨[QOp.gate ⟨[0], fun r c => if r = c then 0 else 1⟩], [0], []⟩
      [⟨[0], fun r c => if r = c then 0 else 1⟩] rfl (by decide)).1
    simpa using h

/-! ### Helper lemmas for the asgate fold -/

/-- A gate's operator embedded over the closure `qs`: the gate contracted onto
an identity over `qs` (the identity on the legs the gate does not touch). -/
def expandAt {α : Type} [CommRing α] (qs : List ℕ) (g : QuantumGate α) :
    Op α qs.length :=
  tensormulMat g.op (idxmap g.qubits qs) idOp

lemma filter_extra_eq_nil {l₁ l₂ : List ℕ} :
    l₁.filter (fun q => !(l₂.contains q)) = [] ↔ l₁ ⊆ l₂ := by
  rw [List.filter_eq_nil_iff]
  constructor
  · intro h x hx
    have hx2 := h x hx
    simpa using hx2
  · intro h x hx
    simpa using h hx

/-- On the subset branch, composing a gate onto an accumulator is matrix
multiplication by the gate's identity-expanded operator. -/
lemma matmul_subset {α : Type} [CommRing α] {a b : QuantumGate α}
    (h : a.qubits ⊆ b.qubits) :
    matmul a b = ⟨b.qubits, matprod (expandAt b.qubits a) b.op⟩ := by
  unfold matmul
  rw [if_pos (filter_extra_eq_nil.2 h)]
  unfold matmulSub
  rw [show matprod (expandAt b.qubits a) b.op =
    tensormulMat a.op (idxmap a.qubits b.qubits) b.op from matprod_expand _ _ _]

lemma asgate_loop {α : Type} [CommRing α] (qs : List ℕ)
    (gs : List (QuantumGate α)) :
    ∀ (M : Op α qs.length), (∀ g ∈ gs, g.qubits ⊆ qs) →
      List.foldlM
          (fun gate elem => (QOp.asgate elem).map (fun eg => matmul eg gate))
          (⟨qs, M⟩ : QuantumGate α) (gs.map QOp.gate) =
        .ok ⟨qs, gs.foldl (fun acc g => matprod (expandAt qs g) acc) M⟩ := by
  induction gs with
  | nil => intro M _; rfl
  | cons g gs ih =>
    intro M h
    have hg : g.qubits ⊆ qs := h g (List.mem_cons_self _ _)
    show ((QOp.asgate (QOp.gate g)).map
        (fun eg => matmul eg (⟨qs, M⟩ : QuantumGate α)) >>= _) = _
    rw [show (QOp.asgate (QOp.gate g)).map
        (fun eg => matmul eg (⟨qs, M⟩ : QuantumGate α)) =
      .ok (matmul g ⟨qs, M⟩) from rfl]
    rw [matmul_subset hg]
    show List.foldlM _ (⟨qs, matprod (expandAt qs g) M⟩ : QuantumGate α)
      (gs.map QOp.gate) = _
    exact ih _ (fun g' hg' => h g' (List.mem_cons_of_mem _ hg'))

lemma foldl_identity_children {α : Type} [CommRing α] (qs' : List ℕ)
    (l : List ℕ) :
    ∀ M : Op α qs'.length,
      (l.map (fun q => Identity (α := α) [q])).foldl
        (fun acc g => matprod (expandAt qs' g) acc) M = M := by
  induction l with
  | nil => intro M; rfl
  | cons q l ih =>
    intro M
    show (l.map (fun q => Identity (α := α) [q])).foldl
      (fun acc g => matprod (expandAt qs' g) acc)
      (matprod (expandAt qs' (Identity [q])) M) = M
    have hstep : matprod (expandAt qs' (Identity (α := α) [q])) M = M := by
      show matprod (tensormulMat idOp (idxmap [q] qs') idOp) M = M
      rw [tensormulMat_idOp, matprod_idOp_left]
    rw [hstep, ih]

lemma flatMap_identity_children {α : Type} [CommRing α] (qs : List ℕ) :
    (qs.map (fun q => QOp.gate (Identity (α := α) [q]))).flatMap QOp.qubitsOf =
      qs := by
  induction qs with
  | nil => rfl
  | cons q l ih =>
    simp only [List.map_cons, List.flatMap_cons, ih]
    rfl

/-- Claim C1: `asgate` folds the children into a single gate, starting from an
identity gate over the closure's qubits and composing so that the result is the
matrix product of the children's identity-expanded operators with later
children multiplied from the left — i.e. children apply in left-to-right
program order, the last child outermost; and folding a Composite of `n`
single-qubit Identity gates (built with its defaulted closure) yields the
identity operator of dimension `2^n`. -/
theorem spec_C1 {α : Type} [CommRing α] (c : QuantumComposite α)
    (gs : List (QuantumGate α)) (hels : c.elements = gs.map QOp.gate)
    (hsub : ∀ g ∈ gs, g.qubits ⊆ c.qubits) :
    c.asgate = .ok ⟨c.qubits,
      gs.foldl (fun acc g => matprod (expandAt c.qubits g) acc) idOp⟩ ∧
    (∀ (qs : List ℕ), qs.Nodup → ∀ (c' : QuantumComposite α),
      mkComposite (qs.map (fun q => QOp.gate (Identity [q]))) none none =
        .ok c' →
      c'.asgate = .ok ⟨c'.qubits, idOp⟩ ∧ c'.qubits.length = qs.length ∧
      Fintype.card (BVec qs.length) = 2 ^ qs.length) := by
  constructor
  · unfold QuantumComposite.asgate
    rw [hels]
    exact asgate_loop c.qubits gs idOp hsub
  · intro qs hq c' hmk
    rw [mkComposite_none] at hmk
    have hc' : c' = ⟨qs.map (fun q => QOp.gate (Identity [q])),
        sortedDedup qs, sortedDedup []⟩ := by
      have := (Except.ok.inj hmk).symm
      rw [this, flatMap_identity_children]
      have hz : (qs.map (fun q => QOp.gate (Identity (α := α) [q]))).flatMap
          QOp.addrsOf = [] :=
        flatMap_addrs_gates _ (fun e he => by
          obtain ⟨q, _, rfl⟩ := List.mem_map.1 he
          exact ⟨Identity [q], rfl⟩)
      rw [hz]
    refine ⟨?_, ?_, ?_⟩
    · rw [hc']
      unfold QuantumComposite.asgate
      have hrun := asgate_loop (α := α) (sortedDedup qs)
        (qs.map (fun q => Identity [q])) idOp
        (fun g hg => by
          obtain ⟨q, hql, rfl⟩ := List.mem_map.1 hg
          intro x hx
          rw [List.mem_singleton.1 hx]
          exact (mem_sortedDedup _ q).2 hql)
      rw [List.map_map] at hrun
      show List.foldlM
          (fun gate elem => Except.map (fun eg => matmul eg gate) elem.asgate)
          (⟨sortedDedup qs, idOp⟩ : QuantumGate α)
          (List.map (QOp.gate ∘ fun q => Identity [q]) qs) =
        Except.ok ⟨sortedDedup qs, idOp⟩
      rw [hrun, foldl_identity_children]
    · rw [hc']
      exact sortedDedup_length_nodup qs hq
    · simp [Fintype.card_fun]

/-- Witness for C1 at a concrete input: the Composite of one single-qubit
Identity on qubit 0 (defaulted closure) folds to the identity gate, whose
operator space has dimension `2^1`. -/
theorem spec_C1_witness :
    ([0] : List ℕ).Nodup ∧
    QuantumComposite.asgate
        (⟨[QOp.gate (Identity [0])], [0], []⟩ : QuantumComposite ℤ) =
      .ok ⟨[0], idOp⟩ ∧
    Fintype.card (BVec 1) = 2 ^ 1 := by
  have h := (spec_C1 (α := ℤ) ⟨[], [], []⟩ [] rfl
    (fun g hg => absurd hg (List.not_mem_nil g))).2 [0] (by decide)
    ⟨[QOp.gate (Identity [0])], sortedDedup [0], sortedDedup []⟩ rfl
  exact ⟨by decide, h.1, h.2.2⟩

/-! ### Helper lemmas for measurement -/

lemma ow_single {n : ℕ} (b : BVec n) (idx : ℕ) (s : BVec 1) (j : Fin n) :
    ow b (fun _ : Fin 1 => idx) s j = if idx = j.val then s 0 else b j := by
  unfold ow
  rw [show List.finRange 1 = [0] from rfl]
  by_cases h : idx = j.val
  · simp [List.find?, h]
  · have hbeq : (idx == j.val) = false := by simpa using h
    simp [List.find?, hbeq, h]

/-- Projecting onto the zero subspace of a qubit leaves a state supported on
that qubit's zero subspace unchanged. -/
lemma project0_support {α : Type} [CommRing α] (q : ℕ) (ket : State α)
    (hmem : q ∈ ket.qubits)
    (hsupp : ∀ b : BVec ket.qubits.length,
      b ⟨ket.qubits.indexOf q, List.indexOf_lt_length.2 hmem⟩ = true →
        ket.tensor b = 0) :
    (projectRun P0op q ket).tensor = ket.tensor := by
  have hlt : ket.qubits.indexOf q < ket.qubits.length :=
    List.indexOf_lt_length.2 hmem
  funext b
  show bvSum 1 (fun s => P0op (fun i => getB b (ket.qubits.indexOf q)) s *
    ket.tensor (ow b (fun _ => ket.qubits.indexOf q) s)) = ket.tensor b
  rw [bvSum, bvSum, bvSum]
  by_cases hb : getB b (ket.qubits.indexOf q) = false
  · have how : ow b (fun _ : Fin 1 => ket.qubits.indexOf q)
        (Fin.cons false (fun i => i.elim0)) = b := by
      funext j
      rw [ow_single]
      by_cases h : ket.qubits.indexOf q = j.val
      · have hj : j = ⟨ket.qubits.indexOf q, hlt⟩ := Fin.ext h.symm
        rw [if_pos h, hj]
        rw [show b ⟨ket.qubits.indexOf q, hlt⟩ =
          getB b (ket.qubits.indexOf q) from (getB_coe b _).symm, hb]
        rfl
      · rw [if_neg h]
    simp only [P0op, hb, Fin.cons_zero]
    norm_num
    rw [how]
  · have hbt : getB b (ket.qubits.indexOf q) = true := by
      revert hb
      cases getB b (ket.qubits.indexOf q) <;> simp
    have hz : ket.tensor b = 0 := by
      refine hsupp b ?_
      rw [show b ⟨ket.qubits.indexOf q, hlt⟩ =
        getB b (ket.qubits.indexOf q) from (getB_coe b _).symm, hbt]
    simp only [P0op, hbt, Fin.cons_zero]
    norm_num
    exact hz.symm

lemma project0_norm {α : Type} [CommRing α] (q : ℕ) (ket : State α)
    (hmem : q ∈ ket.qubits)
    (hsupp : ∀ b : BVec ket.qubits.length,
      b ⟨ket.qubits.indexOf q, List.indexOf_lt_length.2 hmem⟩ = true →
        ket.tensor b = 0) :
    (projectRun P0op q ket).norm = ket.norm := by
  show bvSum ket.qubits.length
      (fun b => (projectRun P0op q ket).tensor b *
        (projectRun P0op q ket).tensor b) = ket.norm
  rw [project0_support q ket hmem hsupp]
  rfl

/-- Claim C6: `Measure.run` projects onto the zero subspace, takes the
post-projection norm as the probability of outcome 0, compares one uniform
sample against it to pick the branch, normalizes the branch taken and stores
the outcome; for a state with the measured qubit in |0⟩ (probability of zero
equal to 1) every sample below 1 takes the zero branch and stores outcome 0 at
the target address. -/
theorem spec_C6 {α : Type} [LinearOrderedField α] (m : Measure)
    (sqrtFn : α → α) (rand : α) (ket : State α)
    (hmem : m.qubit ∈ ket.qubits)
    (hsupp : ∀ b : BVec ket.qubits.length,
      b ⟨ket.qubits.indexOf m.qubit, List.indexOf_lt_length.2 hmem⟩ = true →
        ket.tensor b = 0)
    (hnorm : ket.norm = 1) (hrand : rand < 1) :
    m.run sqrtFn rand ket =
      ((projectRun P0op m.qubit ket).normalize sqrtFn).store m.cbit 0 ∧
    (m.run sqrtFn rand ket).memory.lookup m.cbit = some 0 ∧
    (projectRun P0op m.qubit ket).tensor = ket.tensor := by
  have hp : (projectRun P0op m.qubit ket).norm = 1 :=
    (project0_norm m.qubit ket hmem hsupp).trans hnorm
  have hbranch : m.run sqrtFn rand ket =
      ((projectRun P0op m.qubit ket).normalize sqrtFn).store m.cbit 0 := by
    unfold Measure.run
    rw [hp, if_pos hrand]
  refine ⟨hbranch, ?_, project0_support m.qubit ket hmem hsupp⟩
  rw [hbranch]
  simp [State.store, List.lookup]

/-- Witness for C6 at a concrete input: measuring qubit 0 of the normalized
one-qubit state |0⟩ over ℚ with sample 0 stores outcome 0. -/
theorem spec_C6_witness :
    (0 : ℕ) ∈ [0] ∧
    (∀ b : BVec 1, b ⟨0, by norm_num⟩ = true →
      (if b ⟨0, by norm_num⟩ = false then (1 : ℚ) else 0) = 0) ∧
    (⟨[0], fun b => if b ⟨0, by norm_num⟩ = false then (1 : ℚ) else 0, []⟩ :
      State ℚ).norm = 1 ∧
    (0 : ℚ) < 1 ∧
    ((Measure.mk 0 0).run (fun x => x) 0
        (⟨[0], fun b => if b ⟨0, by norm_num⟩ = false then (1 : ℚ) else 0, []⟩ :
          State ℚ)).memory.lookup 0 = some 0 := by
  have hmem : (0 : ℕ) ∈ [0] := by decide
  have hsupp : ∀ b : BVec 1, b ⟨0, by norm_num⟩ = true →
      (if b ⟨0, by norm_num⟩ = false then (1 : ℚ) else 0) = 0 := by
    intro b hb
    rw [hb]
    norm_num
  have hnorm :
      (⟨[0], fun b => if b ⟨0, by norm_num⟩ = false then (1 : ℚ) else 0, []⟩ :
        State ℚ).norm = 1 := by
    show (1 * 1 + 0 * 0 : ℚ) = 1
    norm_num
  have hsupp2 : ∀ b : BVec ([(0 : ℕ)].length),
      b ⟨[(0 : ℕ)].indexOf 0, List.indexOf_lt_length.2 hmem⟩ = true →
      (if b ⟨0, by norm_num⟩ = false then (1 : ℚ) else 0) = 0 := hsupp
  have h := spec_C6 (Measure.mk 0 0) (fun x => x) 0
    (⟨[0], fun b => if b ⟨0, by norm_num⟩ = false then (1 : ℚ) else 0, []⟩ :
      State ℚ)
    hmem hsupp2 hnorm (by norm_num)
  exact ⟨hmem, hsupp, hnorm, by norm_num, h.2.1⟩

/-! ### Helper lemmas for permutation -/

lemma permBits_eq {k : ℕ} (perm : Fin k → ℕ) (hinj : Function.Injective perm)
    (r : BVec k) (j : Fin k) (p : ℕ) (hp : perm j = p) :
    permBits perm r p = r j := by
  unfold permBits
  cases hfind : (List.finRange k).find? (fun i => perm i == p) with
  | none =>
    exfalso
    have hj := List.find?_eq_none.1 hfind j (List.mem_finRange j)
    simp [hp] at hj
  | some i =>
    have hi : perm i = p := by simpa using List.find?_some hfind
    rw [hinj (hi.trans hp.symm)]

lemma idxmap_injective {qs rs : List ℕ} (hq : qs.Nodup)
    (hsub : ∀ x ∈ qs, x ∈ rs) : Function.Injective (idxmap qs rs) := by
  intro i j hij
  have hi : qs.get i ∈ rs := hsub _ (List.get_mem qs i.val i.isLt)
  have hj : qs.get j ∈ rs := hsub _ (List.get_mem qs j.val j.isLt)
  have hget : qs.get i = qs.get j := (List.indexOf_inj hi hj).1 hij
  exact hq.get_inj_iff.1 hget

/-- Claim C3: `permute` produces the gate with qubits reordered to `qs` (the
same abstract operator read off in the new qubit order: evaluating the permuted
operator on bits assigned per qubit label agrees with the original), and
permuting back by the inverse permutation recovers the original gate exactly. -/
theorem spec_C3 {α : Type} (g : QuantumGate α) (qs : List ℕ)
    (hperm : qs.Perm g.qubits) (hnodup : g.qubits.Nodup) :
    (g.permute qs).qubits = qs ∧
    (g.permute qs).permute g.qubits = g ∧
    (∀ f f' : ℕ → Bool,
      (g.permute qs).op (fun j => f ((g.permute qs).qubits.get j))
          (fun j => f' ((g.permute qs).qubits.get j)) =
        g.op (fun i => f (g.qubits.get i)) (fun i => f' (g.qubits.get i))) := by
  have hqnodup : qs.Nodup := hperm.nodup_iff.2 hnodup
  have hsubA : ∀ x ∈ qs, x ∈ g.qubits := fun x hx => hperm.mem_iff.1 hx
  have hsubB : ∀ x ∈ g.qubits, x ∈ qs := fun x hx => hperm.mem_iff.2 hx
  have hinjA : Function.Injective (idxmap qs g.qubits) :=
    idxmap_injective hqnodup hsubA
  have hinjB : Function.Injective (idxmap g.qubits qs) :=
    idxmap_injective hnodup hsubB
  have hjlt : ∀ p : Fin g.qubits.length, qs.indexOf (g.qubits.get p) < qs.length :=
    fun p => List.indexOf_lt_length.2 (hsubB _ (List.get_mem _ _ _))
  have hjval : ∀ p : Fin g.qubits.length,
      qs.get ⟨qs.indexOf (g.qubits.get p), hjlt p⟩ = g.qubits.get p :=
    fun p => List.indexOf_get (hjlt p)
  have hjperm : ∀ p : Fin g.qubits.length,
      idxmap qs g.qubits ⟨qs.indexOf (g.qubits.get p), hjlt p⟩ = p.val := by
    intro p
    show g.qubits.indexOf (qs.get ⟨qs.indexOf (g.qubits.get p), hjlt p⟩) = p.val
    rw [hjval p]
    exact List.get_indexOf hnodup p
  by_cases heq : g.qubits = qs
  · have h1 : g.permute qs = g := by
      unfold QuantumGate.permute
      rw [if_pos heq]
    have h2 : QuantumGate.permute g g.qubits = g := by
      unfold QuantumGate.permute
      rw [if_pos rfl]
    refine ⟨?_, ?_, ?_⟩
    · rw [h1, ← heq]
    · rw [h1, h2]
    · intro f f'
      rw [h1]
  · have h1 : g.permute qs = ⟨qs, fun r c =>
        g.op (fun p => permBits (idxmap qs g.qubits) r p.val)
          (fun p => permBits (idxmap qs g.qubits) c p.val)⟩ := by
      unfold QuantumGate.permute
      rw [if_neg heq]
    refine ⟨by rw [h1], ?_, ?_⟩
    · rw [h1]
      unfold QuantumGate.permute
      rw [if_neg (fun h => heq h.symm)]
      have hop : (fun (r c : BVec g.qubits.length) =>
          (⟨qs, fun r c =>
            g.op (fun p => permBits (idxmap qs g.qubits) r p.val)
              (fun p => permBits (idxmap qs g.qubits) c p.val)⟩ :
            QuantumGate α).op
            (fun p => permBits (idxmap g.qubits qs) r p.val)
            (fun p => permBits (idxmap g.qubits qs) c p.val)) = g.op := by
        funext r c
        show g.op
            (fun u => permBits (idxmap qs g.qubits)
              (fun p => permBits (idxmap g.qubits qs) r p.val) u.val)
            (fun u => permBits (idxmap qs g.qubits)
              (fun p => permBits (idxmap g.qubits qs) c p.val) u.val) =
          g.op r c
        have harg : ∀ b : BVec g.qubits.length,
            (fun u : Fin g.qubits.length => permBits (idxmap qs g.qubits)
              (fun p => permBits (idxmap g.qubits qs) b p.val) u.val) = b := by
          intro b
          funext u
          rw [permBits_eq (idxmap qs g.qubits) hinjA _
            ⟨qs.indexOf (g.qubits.get u), hjlt u⟩ u.val (hjperm u)]
          exact permBits_eq (idxmap g.qubits qs) hinjB b u
            (qs.indexOf (g.qubits.get u)) rfl
        rw [harg r, harg c]
      exact congrArg (fun M => (⟨g.qubits, M⟩ : QuantumGate α)) hop
    · intro f f'
      rw [h1]
      show g.op
          (fun u => permBits (idxmap qs g.qubits) (fun j => f (qs.get j)) u.val)
          (fun u => permBits (idxmap qs g.qubits) (fun j => f' (qs.get j)) u.val) =
        g.op (fun i => f (g.qubits.get i)) (fun i => f' (g.qubits.get i))
      have harg : ∀ h : ℕ → Bool,
          (fun u : Fin g.qubits.length => permBits (idxmap qs g.qubits)
            (fun j => h (qs.get j)) u.val) =
          (fun i : Fin g.qubits.length => h (g.qubits.get i)) := by
        intro h
        funext u
        rw [permBits_eq (idxmap qs g.qubits) hinjA _
          ⟨qs.indexOf (g.qubits.get u), hjlt u⟩ u.val (hjperm u)]
        rw [hjval u]
      rw [harg f, harg f']

/-- Witness for C3 at a concrete input: a diagonal 2-qubit gate over ℤ on
qubits `[0, 1]`, permuted to `[1, 0]` and back, is recovered exactly. -/
theorem spec_C3_witness :
    ([1, 0] : List ℕ).Perm [0, 1] ∧ ([0, 1] : List ℕ).Nodup ∧
    (QuantumGate.permute
        (⟨[0, 1], fun r c => if r = c then 2 else 0⟩ : QuantumGate ℤ)
        [1, 0]).permute [0, 1] =
      ⟨[0, 1], fun r c => if r = c then 2 else 0⟩ :=
  ⟨by decide, by decide,
    (spec_C3 ⟨[0, 1], fun r c => if r = c then 2 else 0⟩ [1, 0]
      (by decide) (by decide)).2.1⟩

end QF
